import Mathlib

/-!
Verification of the Mosoteach quiz-solving pipeline (Go sources:
`internal/browser/browser.go`, `internal/models/models.go`,
`internal/config`, `internal/processor/processor.go`) against its
natural-language specification.

The Go code is shallowly embedded: pure string manipulation is translated
directly (Go's `strings` library functions are re-implemented over
`List Char` with the same semantics for the single-character separators the
code uses), stateful configuration updates become explicit state passing,
and the network/model calls of the batched answer resolver become oracles
(`World`) that fix, for every prompt, the per-profile call outcomes, and a
cancellation time for the shared context.
-/

namespace Mosoteach

/-! Go string library primitives (re-implemented over `List Char`
so that every definition is structural and kernel-evaluable). -/

/-- Leading-whitespace trim on a character list. -/
def trimLeft : List Char → List Char
  | [] => []
  | c :: cs => if c.isWhitespace then trimLeft cs else c :: cs

/-- Trailing-whitespace trim on a character list. -/
def trimRight (s : List Char) : List Char :=
  (trimLeft s.reverse).reverse

/-- Embeds `strings.TrimSpace` on a character list. -/
def trimChars (s : List Char) : List Char :=
  trimRight (trimLeft s)

/-- Embeds `strings.TrimSpace` on a `String`. -/
def goTrim (s : String) : String :=
  ⟨trimChars s.data⟩

/-- Whether `pat` occurs as a contiguous sublist of `s`
(`strings.Contains` on character lists). -/
def containsSubList (pat : List Char) : List Char → Bool
  | [] => pat.isEmpty
  | c :: cs => pat.isPrefixOf (c :: cs) || containsSubList pat cs

/-- Embeds `strings.Contains s pat` on `String`s. -/
def strContains (s pat : String) : Bool :=
  containsSubList pat.data s.data

/-- Embeds `strings.Split` for a single-character separator, on character lists.
Always returns at least one group. -/
def splitOnChar (sep : Char) : List Char → List (List Char)
  | [] => [[]]
  | c :: cs =>
    if c = sep then [] :: splitOnChar sep cs
    else
      match splitOnChar sep cs with
      | [] => [[c]]
      | g :: gs => (c :: g) :: gs

/-- Embeds `strings.Split s (String.singleton sep)` on `String`s. -/
def goSplitChar (sep : Char) (s : String) : List String :=
  (splitOnChar sep s.data).map fun l => ⟨l⟩

/-- Embeds `strings.HasSuffix` on `String`s. -/
def goHasSuffix (s suf : String) : Bool :=
  suf.data.isSuffixOf s.data

/-- Embeds `strings.TrimSuffix` on `String`s (removes one occurrence of the
suffix, if present). -/
def goTrimSuffix (s suf : String) : String :=
  if goHasSuffix s suf then ⟨s.data.take (s.data.length - suf.data.length)⟩ else s

/-- Embeds `strings.ReplaceAll s (String.singleton c) ""`: removing every
occurrence of one character. -/
def removeChar (c : Char) (s : String) : String :=
  ⟨s.data.filter fun a => a ≠ c⟩

/-- Embeds `strings.ReplaceAll s (String.singleton c) (String.singleton r)`:
replacing one character by another everywhere. -/
def replaceChar (c r : Char) (s : String) : String :=
  ⟨s.data.map fun a => if a = c then r else a⟩

/-! Data model (`browser.go`, `config`, `processor.go`). -/

/-- Embeds `QuestionType` from browser.go: 填空题 / 单选题 / 多选题. -/
inductive QuestionType
  | fill
  | single
  | multiple
deriving DecidableEq, Repr

/-- Embeds `string(q.Type)`: the Chinese literal each `QuestionType` constant
stands for in browser.go. -/
def questionTypeStr : QuestionType → String
  | .fill => "填空题"
  | .single => "单选题"
  | .multiple => "多选题"

/-- Embeds `Option` from browser.go (named `Opt` because Lean's `Option` is in
scope). -/
structure Opt where
  label : String
  text : String
deriving DecidableEq, Repr

/-- Embeds `Question` from browser.go. -/
structure Question where
  type : QuestionType
  content : String
  options : List Opt
deriving DecidableEq, Repr

instance : Inhabited Question := ⟨⟨.single, "", []⟩⟩

/-- Embeds `ModelConfig` from the config package. -/
structure ModelConfig where
  name : String
  enabled : Bool
  baseURL : String
  apiKey : String
  model : String
deriving DecidableEq, Repr

/-- Embeds `UserData` from the config package. -/
structure UserData where
  userName : String
  password : String
  cookie : String
deriving DecidableEq, Repr

/-- Embeds `CachedQuiz` from the config package. -/
structure CachedQuiz where
  url : String
  courseID : String
  courseName : String
  quizID : String
  name : String
  completed : Bool
deriving DecidableEq, Repr

/-- The mutable fields of `Config` that the pipeline reads and writes.
`completedURLs` models the Go `map[string]bool` completion ledger as the
set (list without duplicates of interest) of URLs that have been set to
`true`; the Go code only ever writes `true` into this map. -/
structure ConfigState where
  userData : UserData
  models : List ModelConfig
  cachedQuizzes : List CachedQuiz
  completedURLs : List String
deriving DecidableEq, Repr

/-- The on-disk `ConfigFile` shape read by `Config.Load`. -/
structure ConfigFileData where
  userData : UserData
  models : List ModelConfig
  cachedQuizzes : List CachedQuiz
  completedURLs : List String
deriving DecidableEq, Repr

/-! Completion-ledger operations (`config`: AddCompletedURL,
MarkQuizCompleted, IsURLCompleted, Load, and the other mutators). -/

/-- Setting `CompletedURLs[url] = true` in the map model: membership
insert. -/
def insertURL (url : String) (l : List String) : List String :=
  if l.contains url then l else url :: l

/-- Embeds `Config.IsURLCompleted`. -/
def isURLCompleted (s : ConfigState) (url : String) : Bool :=
  s.completedURLs.contains url

/-- Embeds `Config.AddCompletedURL`: if the URL is already marked it returns
without change, otherwise sets the flag. -/
def addCompletedURL (url : String) (s : ConfigState) : ConfigState :=
  if s.completedURLs.contains url then s
  else { s with completedURLs := url :: s.completedURLs }

/-- The cached-quiz update inside `Config.MarkQuizCompleted`: sets
`Completed = true` on the first cache entry with a matching URL. -/
def markCachedCompleted (url : String) : List CachedQuiz → List CachedQuiz
  | [] => []
  | q :: qs =>
    if q.url = url then { q with completed := true } :: qs
    else q :: markCachedCompleted url qs

/-- Embeds `Config.MarkQuizCompleted`: sets the ledger flag unconditionally and
updates the first matching cache entry. -/
def markQuizCompleted (url : String) (s : ConfigState) : ConfigState :=
  { s with
    completedURLs := insertURL url s.completedURLs
    cachedQuizzes := markCachedCompleted url s.cachedQuizzes }

/-- The default model list from `getDefaultModels` (only its existence
matters for the ledger claims; entries omitted for brevity are irrelevant
because `Load` never touches `completedURLs` through them). -/
def defaultModels : List ModelConfig :=
  [⟨"DeepSeek", true, "https://api.deepseek.com", "", "deepseek-chat"⟩,
   ⟨"Gemini", false, "https://generativelanguage.googleapis.com/v1beta/openai", "", "gemini-2.5-flash"⟩,
   ⟨"OpenAI", false, "https://api.openai.com/v1", "", "gpt-4o"⟩,
   ⟨"通义千问", false, "https://dashscope.aliyuncs.com/compatible-mode/v1", "", "qwen-plus"⟩,
   ⟨"Moonshot", false, "https://api.moonshot.cn/v1", "", "moonshot-v1-auto"⟩,
   ⟨"Ollama", false, "http://localhost:11434/v1", "ollama", "qwen3:8b"⟩]

/-- Embeds `Config.Load` on a successfully read file: replaces user data, cache
and models (falling back to defaults when the file lists none), and *adds*
every URL of the file's completed list to the ledger — the existing map is
not cleared. -/
def loadConfig (file : ConfigFileData) (s : ConfigState) : ConfigState :=
  { userData := file.userData
    cachedQuizzes := file.cachedQuizzes
    models := if file.models.isEmpty then defaultModels else file.models
    completedURLs := file.completedURLs.foldl (fun acc u => insertURL u acc) s.completedURLs }

/-- The state-mutating operations the pipeline performs on `Config`. -/
inductive ConfigOp
  | addCompletedURL (url : String)
  | markQuizCompleted (url : String)
  | load (file : ConfigFileData)
  | updateCookie (cookie : String)
  | saveCachedQuizzes (qs : List CachedQuiz)
  | updateModels (ms : List ModelConfig)
  | addModel (m : ModelConfig)

/-- Effect of each configuration operation on the state. -/
def applyConfigOp (op : ConfigOp) (s : ConfigState) : ConfigState :=
  match op with
  | .addCompletedURL url => addCompletedURL url s
  | .markQuizCompleted url => markQuizCompleted url s
  | .load file => loadConfig file s
  | .updateCookie c => { s with userData := { s.userData with cookie := c } }
  | .saveCachedQuizzes qs => { s with cachedQuizzes := qs }
  | .updateModels ms => { s with models := ms }
  | .addModel m => { s with models := s.models ++ [m] }

/-- A pipeline run: a sequence of configuration operations applied in
order. -/
def applyConfigOps (ops : List ConfigOp) (s : ConfigState) : ConfigState :=
  ops.foldl (fun st op => applyConfigOp op st) s

/-! Ledger monotonicity lemmas (claim C8). -/

theorem contains_cons_of (a b : String) (l : List String)
    (h : l.contains a = true) : (b :: l).contains a = true := by
  simp only [List.contains_cons, Bool.or_eq_true]
  exact Or.inr h

theorem insertURL_preserves (url u : String) (l : List String)
    (h : l.contains u = true) : (insertURL url l).contains u = true := by
  unfold insertURL
  split
  · exact h
  · exact contains_cons_of u url l h

theorem insertURL_self (url : String) (l : List String) :
    (insertURL url l).contains url = true := by
  unfold insertURL
  split
  · assumption
  · simp

theorem foldl_insertURL_preserves (us : List String) (u : String) :
    ∀ l : List String, l.contains u = true →
      (us.foldl (fun acc x => insertURL x acc) l).contains u = true := by
  induction us with
  | nil => intro l h; simpa using h
  | cons x xs ih =>
    intro l h
    exact ih _ (insertURL_preserves x u l h)

theorem applyConfigOp_preserves_completed (op : ConfigOp) (s : ConfigState)
    (u : String) (h : isURLCompleted s u = true) :
    isURLCompleted (applyConfigOp op s) u = true := by
  unfold isURLCompleted at h
  cases op with
  | addCompletedURL url =>
    show (addCompletedURL url s).completedURLs.contains u = true
    unfold addCompletedURL
    split
    · exact h
    · exact contains_cons_of u url _ h
  | markQuizCompleted url =>
    show (markQuizCompleted url s).completedURLs.contains u = true
    exact insertURL_preserves url u _ h
  | load file =>
    show (loadConfig file s).completedURLs.contains u = true
    exact foldl_insertURL_preserves _ _ _ h
  | updateCookie c => exact h
  | saveCachedQuizzes qs => exact h
  | updateModels ms => exact h
  | addModel m => exact h

/-- C8: The completion ledger is monotone: once a quiz URL is marked
completed (by `AddCompletedURL` or `MarkQuizCompleted`), no sequence of
pipeline configuration operations (add/mark/load/updateCookie/
saveCachedQuizzes/updateModels/addModel) ever resets the URL's completed
flag; membership of previously completed URLs is preserved by every
operation. -/
theorem completion_ledger_monotone (ops : List ConfigOp) (s : ConfigState)
    (u : String) (h : isURLCompleted s u = true) :
    isURLCompleted (applyConfigOps ops s) u = true := by
  induction ops generalizing s with
  | nil => simpa [applyConfigOps] using h
  | cons op rest ih =>
    simpa [applyConfigOps] using
      ih (applyConfigOp op s) (applyConfigOp_preserves_completed op s u h)

/-- Witness for C8: a URL marked by `AddCompletedURL` stays marked across
a load, a cache rewrite and a `MarkQuizCompleted` of another URL. -/
theorem completion_ledger_monotone_witness :
    isURLCompleted
      (applyConfigOps
        [.load ⟨⟨"u", "p", ""⟩, [], [], ["other"]⟩,
         .saveCachedQuizzes [],
         .markQuizCompleted "https://b"]
        (addCompletedURL "https://a"
          ⟨⟨"", "", ""⟩, [], [], []⟩)) "https://a" = true :=
  completion_ledger_monotone _ _ "https://a" (by decide)

/-! Chat-endpoint URL construction (`UnifiedModel.GetAnswer`,
models.go lines 120-134). -/

/-- The request-URL computation of `UnifiedModel.GetAnswer`. -/
def buildChatURL (base : String) : String :=
  let baseURL := goTrimSuffix base "/"
  if goHasSuffix baseURL "/chat/completions" then baseURL
  else if strContains baseURL "/v1" || strContains baseURL "/v1beta" then
    baseURL ++ "/chat/completions"
  else baseURL ++ "/v1/chat/completions"

/-- C9: Chat-endpoint URL construction: with `b` the configured base
URL after trimming a trailing `/`, the request URL is `b` unchanged when
`b` already ends in `/chat/completions`; `b ++ "/chat/completions"` when
`b` contains a version segment (`/v1` or `/v1beta`); and
`b ++ "/v1/chat/completions"` otherwise. -/
theorem chat_url_construction (base : String) :
    (goHasSuffix (goTrimSuffix base "/") "/chat/completions" = true →
      buildChatURL base = goTrimSuffix base "/") ∧
    (goHasSuffix (goTrimSuffix base "/") "/chat/completions" = false →
      (strContains (goTrimSuffix base "/") "/v1"
        || strContains (goTrimSuffix base "/") "/v1beta") = true →
      buildChatURL base = goTrimSuffix base "/" ++ "/chat/completions") ∧
    (goHasSuffix (goTrimSuffix base "/") "/chat/completions" = false →
      (strContains (goTrimSuffix base "/") "/v1"
        || strContains (goTrimSuffix base "/") "/v1beta") = false →
      buildChatURL base = goTrimSuffix base "/" ++ "/v1/chat/completions") := by
  refine ⟨fun h1 => ?_, fun h1 h2 => ?_, fun h1 h2 => ?_⟩
  · simp [buildChatURL, h1]
  · simp [buildChatURL, h1, h2]
  · simp [buildChatURL, h1, h2]

/-- Witness for C9 at the default DeepSeek base URL (no trailing slash, no
version segment, no full path). -/
theorem chat_url_construction_witness :
    goHasSuffix (goTrimSuffix "https://api.deepseek.com" "/") "/chat/completions" = false ∧
    (strContains (goTrimSuffix "https://api.deepseek.com" "/") "/v1"
      || strContains (goTrimSuffix "https://api.deepseek.com" "/") "/v1beta") = false ∧
    buildChatURL "https://api.deepseek.com" = "https://api.deepseek.com/v1/chat/completions" := by
  refine ⟨by decide, by decide, ?_⟩
  exact ((chat_url_construction "https://api.deepseek.com").2.2 (by decide) (by decide)).trans
    (by decide)

/-! Multi-model fallback (`ModelManager.GetAnswer`, models.go lines
200-216, and `Config.GetEnabledModels`, lines 535-546). A single model
call returns an answer string and an optional error; the manager is
modelled on the list of per-profile call results. -/

/-- The `(answer, err)` pair a `UnifiedModel.GetAnswer` call produces. -/
structure CallResult where
  answer : String
  err : Option String
deriving DecidableEq, Repr

/-- Errors `ModelManager.GetAnswer` can return: no configured model, or
all profiles failed (wrapping the last profile's error, which is the
`lastErr` variable of the loop). -/
inductive MgrErr
  | noModels
  | allFailed (last : Option String)
deriving DecidableEq, Repr

/-- The success condition of the fallback loop:
`err == nil && answer != ""`. -/
def isGoodResult (r : CallResult) : Bool :=
  r.err.isNone && (r.answer != "")

/-- The fallback loop of `ModelManager.GetAnswer`, threading `lastErr`. -/
def managerGetAnswerGo : List CallResult → Option String → Except MgrErr String
  | [], last => .error (.allFailed last)
  | r :: rs, _ =>
    if isGoodResult r then .ok r.answer
    else managerGetAnswerGo rs r.err

/-- Embeds `ModelManager.GetAnswer` over the list of per-profile call results
(in manager order). -/
def managerGetAnswer (rs : List CallResult) : Except MgrErr String :=
  if rs.isEmpty then .error .noModels
  else managerGetAnswerGo rs none

/-- Embeds `Config.GetEnabledModels`: the enabled profiles with a non-empty API
key, in configured order. -/
def getEnabledModels (ms : List ModelConfig) : List ModelConfig :=
  ms.filter fun m => m.enabled && (m.apiKey != "")

theorem managerGetAnswerGo_spec (rs : List CallResult) :
    ∀ last, managerGetAnswerGo rs last =
      match rs.find? isGoodResult with
      | some r => .ok r.answer
      | none => .error (.allFailed ((rs.getLast?).getD ⟨"", last⟩).err) := by
  induction rs with
  | nil => intro last; rfl
  | cons r rs ih =>
    intro last
    by_cases h : isGoodResult r = true
    · simp [managerGetAnswerGo, h, List.find?_cons, *]
    · have h' : isGoodResult r = false := by simpa using h
      have e1 : managerGetAnswerGo (r :: rs) last = managerGetAnswerGo rs r.err := by
        simp [managerGetAnswerGo, h']
      have e2 : (r :: rs).find? isGoodResult = rs.find? isGoodResult := by
        simp [List.find?_cons, h']
      rw [e1, e2, ih r.err]
      cases hrs : rs with
      | nil => simp
      | cons x xs =>
        cases hgl : (x :: xs).getLast? with
        | none => exact absurd hgl (by simp)
        | some y => simp [hgl]

/-- C4: Resolving a single prompt tries each enabled profile with a
non-empty API key in configured order (`GetEnabledModels`); the result is
the first call result that is error-free with a non-empty answer, and if
no profile produces one, an error wrapping the last tried profile's error
(`lastErr`). -/
theorem model_fallback (ms : List ModelConfig) (call : ModelConfig → CallResult)
    (hne : getEnabledModels ms ≠ []) :
    managerGetAnswer ((getEnabledModels ms).map call) =
      match ((getEnabledModels ms).map call).find? isGoodResult with
      | some r => .ok r.answer
      | none =>
        .error (.allFailed
          ((((getEnabledModels ms).map call).getLast?).getD ⟨"", none⟩).err) := by
  have hne' : ((getEnabledModels ms).map call).isEmpty = false := by
    simpa [List.isEmpty_iff] using hne
  rw [managerGetAnswer, hne', if_neg (by simp)]
  exact managerGetAnswerGo_spec _ none

/-- Witness for C4: one disabled profile, one enabled keyless profile and
two enabled credentialed profiles; only the credentialed ones are tried,
the first returns an empty answer and the second errors, so the manager
fails carrying the second profile's error. -/
theorem model_fallback_witness :
    managerGetAnswer
      ((getEnabledModels
        [⟨"off", false, "u", "k", "m"⟩,
         ⟨"nokey", true, "u", "", "m"⟩,
         ⟨"a", true, "u", "k1", "m"⟩,
         ⟨"b", true, "u", "k2", "m"⟩]).map
        (fun m => if m.name = "a" then ⟨"", none⟩ else ⟨"", some "boom"⟩)) =
      .error (.allFailed (some "boom")) :=
  Eq.trans (model_fallback _ _ (by decide)) rfl

/-! Answer-list construction of `batchSubmitAnswers` (browser.go lines
1029-1076): the `AnswerData` records handed to the in-page injection
script. -/

/-- The `AnswerData` JSON records built by `batchSubmitAnswers`. -/
structure AnswerData where
  index : Nat
  type : String
  answer : String
deriving DecidableEq, Repr

/-- The `typeStr` switch of `batchSubmitAnswers` (default `"single"`). -/
def goTypeStr : QuestionType → String
  | .multiple => "multi"
  | .fill => "fill"
  | .single => "single"

/-- The answer-list loop of `batchSubmitAnswers`: skips empty answers and,
for Single-type questions whose answer contains a comma, truncates to the
trimmed first comma-separated part. `i` is the running question index. -/
def buildAnswerListGo (answers : List String) : Nat → List Question → List AnswerData
  | _, [] => []
  | i, q :: rest =>
    let answer := answers.getD i ""
    if answer = "" then buildAnswerListGo answers (i + 1) rest
    else
      let answer' :=
        if q.type = .single ∧ strContains answer "," = true then
          goTrim ((goSplitChar ',' answer).headD "")
        else answer
      ⟨i, goTypeStr q.type, answer'⟩ :: buildAnswerListGo answers (i + 1) rest

/-- The answer list `batchSubmitAnswers` serializes and injects. -/
def buildAnswerList (questions : List Question) (answers : List String) : List AnswerData :=
  buildAnswerListGo answers 0 questions

theorem buildAnswerListGo_find (ans : List String) (qs : List Question) :
    ∀ k i, i < qs.length → ans.getD (k + i) "" ≠ "" →
      (buildAnswerListGo ans k qs).find? (fun d => d.index == k + i) =
        some ⟨k + i, goTypeStr (qs.getD i default).type,
          if (qs.getD i default).type = .single ∧
              strContains (ans.getD (k + i) "") "," = true then
            goTrim ((goSplitChar ',' (ans.getD (k + i) "")).headD "")
          else ans.getD (k + i) ""⟩ := by
  induction qs with
  | nil => intro k i hi; simp at hi
  | cons q rest ih =>
    intro k i hi hne
    cases i with
    | zero =>
      simp only [Nat.add_zero] at hne ⊢
      simp only [buildAnswerListGo, if_neg hne]
      simp [List.find?_cons]
    | succ j =>
      have hj : j < rest.length := by simpa using hi
      have harith : k + 1 + j = k + (j + 1) := by omega
      have hne' : ans.getD (k + 1 + j) "" ≠ "" := by rwa [harith]
      have tail := ih (k + 1) j hj hne'
      rw [harith] at tail
      simp only [buildAnswerListGo]
      split
      · simpa using tail
      · have hx : (k == k + (j + 1)) = false := by
          simp only [beq_eq_false_iff_ne, ne_eq]
          omega
        simp only [List.find?_cons, hx]
        simp at tail ⊢
        exact tail

/-- C7: For every Single-type question whose non-empty resolved answer
contains a comma, the answer in the injected `AnswerData` record for that
question index is the first comma-separated part trimmed of whitespace;
an answer without a comma is passed through unchanged. -/
theorem single_answer_truncation (qs : List Question) (ans : List String) (i : Nat)
    (hi : i < qs.length) (hty : (qs.getD i default).type = .single)
    (hne : ans.getD i "" ≠ "") :
    ((buildAnswerList qs ans).find? (fun d => d.index == i)).map AnswerData.answer =
      some (if strContains (ans.getD i "") "," = true then
              goTrim ((goSplitChar ',' (ans.getD i "")).headD "")
            else ans.getD i "") := by
  have h := buildAnswerListGo_find ans qs 0 i hi (by simpa using hne)
  simp only [Nat.zero_add] at h
  rw [buildAnswerList, h, Option.map_some', hty]
  simp

/-- Witness for C7: a Single-type question resolved to `"A, B"` is
injected as `"A"`. -/
theorem single_answer_truncation_witness :
    ((buildAnswerList [⟨.single, "q", [⟨"A", "x"⟩, ⟨"B", "y"⟩]⟩] ["A, B"]).find?
        (fun d => d.index == 0)).map AnswerData.answer = some "A" :=
  Eq.trans
    (single_answer_truncation [⟨.single, "q", [⟨"A", "x"⟩, ⟨"B", "y"⟩]⟩] ["A, B"] 0
      (by decide) (by decide) (by decide)) (by decide)

/-! Cookie persistence round trip: `saveCookies` (browser.go lines
221-249) joins `name=value` pairs with `"; "`; `parseCookies`
(processor.go lines 80-97) splits on `";"`, trims each pair, skips empty
pairs, splits at the first `"="` (SplitN limit 2) and trims name and
value. Cookies are modelled as character-list pairs. -/

/-- Embeds `fmt.Sprintf("%s=%s", c.Name, c.Value)` for one cookie. -/
def cookiePairStr (c : List Char × List Char) : List Char :=
  c.1 ++ '=' :: c.2

/-- Embeds `strings.Join parts "; "`. -/
def joinSemiSpace : List (List Char) → List Char
  | [] => []
  | [p] => p
  | p :: ps => p ++ ';' :: ' ' :: joinSemiSpace ps

/-- The cookie string `saveCookies` persists. -/
def serializeCookies (cs : List (List Char × List Char)) : List Char :=
  joinSemiSpace (cs.map cookiePairStr)

/-- Embeds `strings.SplitN pair "=" 2`: the name/rest split at the first `=`
(`none` models the length-1 result when no `=` occurs). -/
def splitAtFirstEq : List Char → Option (List Char × List Char)
  | [] => none
  | c :: cs =>
    if c = '=' then some ([], cs)
    else (splitAtFirstEq cs).map fun p => (c :: p.1, p.2)

/-- The per-pair body of the `parseCookies` loop. -/
def parseCookiePair (pair : List Char) : Option (List Char × List Char) :=
  let p := trimChars pair
  if p.isEmpty then none
  else
    match splitAtFirstEq p with
    | none => none
    | some (n, v) => some (trimChars n, trimChars v)

/-- Embeds `parseCookies` from processor.go. -/
def parseCookies (cookieStr : List Char) : List (List Char × List Char) :=
  (splitOnChar ';' cookieStr).filterMap parseCookiePair

/-! Supporting lemmas about the character-list primitives. -/

theorem trimLeft_append (x y : List Char) :
    trimLeft (x ++ y) = if trimLeft x = [] then trimLeft y else trimLeft x ++ y := by
  induction x with
  | nil => simp [trimLeft]
  | cons c cs ih =>
    by_cases hws : c.isWhitespace
    · simpa [trimLeft, hws] using ih
    · simp [trimLeft, hws]

theorem trimLeft_length_le (s : List Char) : (trimLeft s).length ≤ s.length := by
  induction s with
  | nil => simp [trimLeft]
  | cons c cs ih =>
    by_cases hws : c.isWhitespace
    · simp only [trimLeft, if_pos hws]
      exact Nat.le_succ_of_le ih
    · simp [trimLeft, hws]

theorem trimLeft_self_ne_nil (s : List Char) (h : trimLeft s = s) (hne : s ≠ []) :
    ∃ c cs, s = c :: cs ∧ c.isWhitespace = false := by
  cases s with
  | nil => exact absurd rfl hne
  | cons c cs =>
    refine ⟨c, cs, rfl, ?_⟩
    by_contra hws
    have hws' : c.isWhitespace = true := by simpa using hws
    have h' : trimLeft cs = c :: cs := by simpa [trimLeft, hws'] using h
    have := trimLeft_length_le cs
    rw [h'] at this
    simp at this

theorem trimLeft_self_append (s t : List Char) (h : trimLeft s = s) (hne : s ≠ []) :
    trimLeft (s ++ t) = s ++ t := by
  obtain ⟨c, cs, rfl, hws⟩ := trimLeft_self_ne_nil s h hne
  simp [trimLeft, hws]

theorem splitOnChar_not_mem (sep : Char) (s : List Char) (h : sep ∉ s) :
    splitOnChar sep s = [s] := by
  induction s with
  | nil => rfl
  | cons c cs ih =>
    have hcs : sep ∉ cs := fun hm => h (List.mem_cons_of_mem _ hm)
    have hc : ¬c = sep := fun he => h (he ▸ List.mem_cons_self c cs)
    simp [splitOnChar, hc, ih hcs]

theorem splitOnChar_append_sep (sep : Char) (a b : List Char) (h : sep ∉ a) :
    splitOnChar sep (a ++ sep :: b) = a :: splitOnChar sep b := by
  induction a with
  | nil => simp [splitOnChar]
  | cons c cs ih =>
    have hcs : sep ∉ cs := fun hm => h (List.mem_cons_of_mem _ hm)
    have hc : ¬c = sep := fun he => h (he ▸ List.mem_cons_self c cs)
    simp only [List.cons_append, splitOnChar, if_neg hc]
    rw [show cs.append (sep :: b) = cs ++ sep :: b from rfl, ih hcs]

/-- A well-formed cookie for the round trip: the name contains no `=` and
no `;`, the value contains no `;`, and neither has leading or trailing
whitespace. -/
def GoodCookie (c : List Char × List Char) : Prop :=
  '=' ∉ c.1 ∧ ';' ∉ c.1 ∧ ';' ∉ c.2 ∧
    trimLeft c.1 = c.1 ∧ trimRight c.1 = c.1 ∧
    trimLeft c.2 = c.2 ∧ trimRight c.2 = c.2

instance (c : List Char × List Char) : Decidable (GoodCookie c) := by
  unfold GoodCookie
  infer_instance

theorem trimRight_eq_self_iff (s : List Char) :
    trimRight s = s ↔ trimLeft s.reverse = s.reverse := by
  unfold trimRight
  constructor
  · intro h
    have := congrArg List.reverse h
    simpa using this
  · intro h
    rw [h]
    simp

theorem semi_not_mem_pairStr (c : List Char × List Char) (h : GoodCookie c) :
    ';' ∉ cookiePairStr c := by
  obtain ⟨-, h1, h2, -⟩ := h
  intro hm
  rcases List.mem_append.mp hm with hm | hm
  · exact h1 hm
  · rcases List.mem_cons.mp hm with he | hm
    · exact absurd he (by decide)
    · exact h2 hm

theorem trimChars_pairStr (c : List Char × List Char) (h : GoodCookie c) :
    trimChars (cookiePairStr c) = cookiePairStr c := by
  obtain ⟨-, -, -, hL1, hR1, hL2, hR2⟩ := h
  have hR1' := (trimRight_eq_self_iff _).mp hR1
  have hR2' := (trimRight_eq_self_iff _).mp hR2
  have hleft : trimLeft (cookiePairStr c) = cookiePairStr c := by
    unfold cookiePairStr
    rcases eq_or_ne c.1 [] with h1 | h1
    · rw [h1]
      simp [trimLeft, show ('=').isWhitespace = false from rfl]
    · exact trimLeft_self_append _ _ hL1 h1
  have hright : trimRight (cookiePairStr c) = cookiePairStr c := by
    rw [trimRight_eq_self_iff]
    unfold cookiePairStr
    have hrw : (c.1 ++ '=' :: c.2).reverse = c.2.reverse ++ '=' :: c.1.reverse := by
      simp
    rw [hrw]
    rcases eq_or_ne c.2 [] with h2 | h2
    · rw [h2]
      simp [trimLeft, show ('=').isWhitespace = false by decide]
    · exact trimLeft_self_append _ _ hR2' (by simpa using h2)
  unfold trimChars
  rw [hleft, hright]

theorem splitAtFirstEq_pairStr (n v : List Char) (h : '=' ∉ n) :
    splitAtFirstEq (n ++ '=' :: v) = some (n, v) := by
  induction n with
  | nil => simp [splitAtFirstEq]
  | cons c cs ih =>
    have hcs : '=' ∉ cs := fun hm => h (List.mem_cons_of_mem _ hm)
    have hc : ¬c = '=' := fun he => h (he ▸ List.mem_cons_self c cs)
    simp [splitAtFirstEq, hc, ih hcs]

theorem trimChars_self_of (s : List Char) (hL : trimLeft s = s) (hR : trimRight s = s) :
    trimChars s = s := by
  unfold trimChars
  rw [hL, hR]

theorem parseCookiePair_pairStr (c : List Char × List Char) (h : GoodCookie c) :
    parseCookiePair (cookiePairStr c) = some c := by
  have htrim := trimChars_pairStr c h
  have hne : (cookiePairStr c).isEmpty = false := by
    unfold cookiePairStr
    cases c.1 <;> simp
  have hsplit : splitAtFirstEq (cookiePairStr c) = some (c.1, c.2) :=
    splitAtFirstEq_pairStr c.1 c.2 h.1
  obtain ⟨-, -, -, hL1, hR1, hL2, hR2⟩ := h
  unfold parseCookiePair
  simp only [htrim, hne, Bool.false_eq_true, if_false, hsplit]
  rw [trimChars_self_of _ hL1 hR1, trimChars_self_of _ hL2 hR2]

theorem trimChars_cons_space (s : List Char) : trimChars (' ' :: s) = trimChars s := by
  simp [trimChars, trimLeft, show (' ').isWhitespace = true by decide]

theorem parseCookiePair_space_pairStr (c : List Char × List Char) (h : GoodCookie c) :
    parseCookiePair (' ' :: cookiePairStr c) = some c := by
  have := parseCookiePair_pairStr c h
  unfold parseCookiePair at this ⊢
  rwa [trimChars_cons_space]

theorem splitOnChar_serialize (c : List Char × List Char)
    (cs : List (List Char × List Char)) (h : ∀ p ∈ c :: cs, GoodCookie p) :
    splitOnChar ';' (serializeCookies (c :: cs)) =
      cookiePairStr c :: cs.map (fun p => ' ' :: cookiePairStr p) := by
  induction cs generalizing c with
  | nil =>
    have := semi_not_mem_pairStr c (h c (List.mem_cons_self _ _))
    simp [serializeCookies, joinSemiSpace, splitOnChar_not_mem ';' _ this]
  | cons d ds ih =>
    have hc : GoodCookie c := h c (List.mem_cons_self _ _)
    have hrest : ∀ p ∈ d :: ds, GoodCookie p := fun p hp =>
      h p (List.mem_cons_of_mem _ hp)
    have hjoin : serializeCookies (c :: d :: ds) =
        cookiePairStr c ++ ';' :: ' ' :: serializeCookies (d :: ds) := by
      simp [serializeCookies, joinSemiSpace]
    rw [hjoin, splitOnChar_append_sep ';' _ _ (semi_not_mem_pairStr c hc)]
    have hsp : splitOnChar ';' (' ' :: serializeCookies (d :: ds)) =
        (' ' :: cookiePairStr d) :: ds.map (fun p => ' ' :: cookiePairStr p) := by
      rw [show splitOnChar ';' (' ' :: serializeCookies (d :: ds)) =
          match splitOnChar ';' (serializeCookies (d :: ds)) with
          | [] => [[' ']]
          | g :: gs => (' ' :: g) :: gs from by simp [splitOnChar]]
      rw [ih d hrest]
    rw [hsp]
    simp

theorem filterMap_eq_of_all_some {α β : Type} (f : α → Option β) (g : α → β)
    (l : List α) (h : ∀ x ∈ l, f x = some (g x)) : l.filterMap f = l.map g := by
  induction l with
  | nil => rfl
  | cons x xs ih =>
    rw [List.filterMap_cons, h x (List.mem_cons_self _ _), List.map_cons,
      ih fun y hy => h y (List.mem_cons_of_mem _ hy)]

/-- C10: Cookie persistence round trip: for every cookie list whose
names contain no `=` and whose names and values contain no `;` and no
leading or trailing whitespace, parsing the serialized cookie string
(`name=value` pairs joined with `"; "`, as `saveCookies` builds it)
recovers exactly the original name/value pairs in order. -/
theorem cookie_round_trip (cs : List (List Char × List Char))
    (h : ∀ c ∈ cs, GoodCookie c) :
    parseCookies (serializeCookies cs) = cs := by
  cases cs with
  | nil => rfl
  | cons c rest =>
    unfold parseCookies
    rw [splitOnChar_serialize c rest h, List.filterMap_cons,
      parseCookiePair_pairStr c (h c (List.mem_cons_self _ _)), List.filterMap_map]
    have hrest := filterMap_eq_of_all_some
      (parseCookiePair ∘ fun p => ' ' :: cookiePairStr p) id rest
      (fun p hp => parseCookiePair_space_pairStr p (h p (List.mem_cons_of_mem _ hp)))
    simp [hrest]

/-- Witness for C10: two realistic cookies (the second value contains an
`=`) survive the serialize/parse round trip. -/
theorem cookie_round_trip_witness :
    parseCookies (serializeCookies
      [("SESSIONID".data, "abc123".data), ("token".data, "x=y".data)]) =
      [("SESSIONID".data, "abc123".data), ("token".data, "x=y".data)] :=
  cookie_round_trip _ (by decide)

/-! The batched answer resolver (`getBatchAnswers`,
`getBatchAnswersForChunk`, `parseBatchAnswers`, `getAnswerWithContext`;
browser.go lines 813-1026). Network effects are captured by a `World`
oracle fixing, for each prompt, the per-profile call outcomes (threaded
through `managerGetAnswer`, exactly as both the chunk call and the
per-question degrade call go through `ModelManager.GetAnswer`), the
regex-match extraction from each response, and the step index at which the
shared context is cancelled. One model call advances time by one step;
the context checks of the Go code are the `isDone` tests. -/

/-- Embeds `batchSize` from browser.go. -/
def batchSize : Nat := 10

/-- Primary-pattern answer cleaning in `parseBatchAnswers`: trim, delete
`。`, replace full-width commas, trim again. -/
def cleanPrimaryAnswer (s : String) : String :=
  goTrim (replaceChar '，' ',' (removeChar '。' (goTrim s)))

/-- Looser-pattern answer cleaning in `parseBatchAnswers`: trim and
replace full-width commas. -/
def cleanAltAnswer (s : String) : String :=
  replaceChar '，' ',' (goTrim s)

/-- Embeds `countNonEmpty` from browser.go. -/
def countNonEmpty (answers : List String) : Nat :=
  answers.foldl (fun n a => if a != "" then n + 1 else n) 0

/-- Embeds `parseBatchAnswers` over the extracted regex matches (1-based tag
index paired with the captured answer text): a slot array of exactly
`questionCount` empty strings, filled from the `【答案X】` matches with
out-of-range indices discarded, then — only if some slot is still empty —
filled from the looser ordinal matches without overwriting. -/
def parseBatchAnswers (ms altMatches : List (Nat × String))
    (questionCount : Nat) : List String :=
  let answers := List.replicate questionCount ""
  let answers := ms.foldl
    (fun a m =>
      if 1 ≤ m.1 ∧ m.1 ≤ questionCount then
        a.set (m.1 - 1) (cleanPrimaryAnswer m.2)
      else a)
    answers
  if countNonEmpty answers < questionCount then
    altMatches.foldl
      (fun a m =>
        if 1 ≤ m.1 ∧ m.1 ≤ questionCount ∧ a.getD (m.1 - 1) "" = "" then
          a.set (m.1 - 1) (cleanAltAnswer m.2)
        else a)
      answers
  else answers

/-- The preamble of the composite chunk prompt
(`getBatchAnswersForChunk`). -/
def promptPreamble : String :=
  "请依次回答以下所有题目。每道题的答案用【答案X】标记，X是题号。\n" ++
  "回答格式要求：\n" ++
  "- 单选题：只回答选项字母，如 A\n" ++
  "- 多选题：回答所有正确选项字母，用逗号分隔，如 A,B,C\n" ++
  "- 填空题：直接回答答案内容\n\n"

/-- One question's block in the composite prompt (`i` is the 0-based
index within the chunk). -/
def questionBlock (i : Nat) (q : Question) : String :=
  "【题目" ++ toString (i + 1) ++ "】" ++ questionTypeStr q.type ++ "\n" ++
    q.content ++ "\n" ++
    String.join (q.options.map fun o => o.label ++ "." ++ o.text ++ "\n") ++ "\n"

/-- The question blocks of the composite prompt, in chunk order. -/
def questionBlocks : Nat → List Question → String
  | _, [] => ""
  | i, q :: rest => questionBlock i q ++ questionBlocks (i + 1) rest

/-- The trailing empty `【答案X】` placeholders of the composite prompt. -/
def answerTags : Nat → Nat → String
  | _, 0 => ""
  | i, n + 1 => "【答案" ++ toString (i + 1) ++ "】\n" ++ answerTags (i + 1) n

/-- The composite prompt `getBatchAnswersForChunk` builds for a chunk. -/
def buildBatchPrompt (qs : List Question) : String :=
  promptPreamble ++ questionBlocks 0 qs ++ "\n请按照格式回答所有题目：\n" ++
    answerTags 0 qs.length

/-- The single-question prompt of `getAnswerWithContext`. -/
def buildSinglePrompt (q : Question) : String :=
  questionTypeStr q.type ++ "\n" ++ q.content ++
    String.join (q.options.map fun o => "\n" ++ o.label ++ "." ++ o.text)

/-- The oracle world of a resolver run: per-profile call outcomes for
every prompt, the regex-match extraction from every model response, and
the time step at which the shared context is cancelled (`none` = never). -/
structure World where
  profileResults : String → List CallResult
  parse : String → List (Nat × String) × List (Nat × String)
  cancelAt : Option Nat

/-- Whether the shared context is done at time `t`. -/
def isDone (cancelAt : Option Nat) (t : Nat) : Bool :=
  match cancelAt with
  | none => false
  | some k => k ≤ t

/-- The instrumented result of a resolver run: the answer slots, whether
the run ended with the context's cancellation error, the chunk requests
issued (start index and composite prompt), the slot writes performed
(slot, value, time), and the final time. -/
structure RunOut where
  answers : List String
  cancelled : Bool
  chunkCalls : List (Nat × String)
  writes : List (Nat × String × Nat)
  finalTime : Nat
deriving Repr

/-- A single degraded per-question resolution
(`getAnswerWithContext` → `ModelManager.GetAnswer`). -/
def singleShot (w : World) (q : Question) : Except MgrErr String :=
  managerGetAnswer (w.profileResults (buildSinglePrompt q))

/-- A chunk resolution (`getBatchAnswersForChunk` →
`ModelManager.GetAnswer` on the composite prompt). -/
def chunkShot (w : World) (qs : List Question) : Except MgrErr String :=
  managerGetAnswer (w.profileResults (buildBatchPrompt qs))

/-- The per-question degrade loop of `getBatchAnswers` (lines 864-880):
cancellation is checked before each question; a call made while the
context fires returns the cancellation error; a failed question leaves its
slot untouched; a successful one writes `allAnswers[batchStart+i]`. -/
def runPerQ (w : World) : List Question → Nat → List String → Nat → RunOut
  | [], _, ans, t => ⟨ans, false, [], [], t⟩
  | q :: rest, g, ans, t =>
    if isDone w.cancelAt t then ⟨ans, true, [], [], t⟩
    else if isDone w.cancelAt (t + 1) then ⟨ans, true, [], [], t + 1⟩
    else
      match singleShot w q with
      | .error _ => runPerQ w rest (g + 1) ans (t + 1)
      | .ok a =>
        let out := runPerQ w rest (g + 1) (ans.set g a) (t + 1)
        { out with writes := (g, a, t + 1) :: out.writes }

/-- The copy of a successful chunk's parsed answers into `allAnswers`
(lines 885-892). -/
def writeAll : List String → Nat → List String → List String
  | ans, _, [] => ans
  | ans, start, v :: vs => writeAll (ans.set start v) (start + 1) vs

/-- The write trace of a successful chunk copy. -/
def chunkWrites (start t : Nat) : List String → List (Nat × String × Nat)
  | [] => []
  | v :: vs => (start, v, t) :: chunkWrites (start + 1) t vs

/-- The chunk loop of `getBatchAnswers` (lines 838-901): cancellation is
checked before each chunk; a chunk call made while the context fires
returns the cancellation error; a failed chunk degrades to the
per-question loop; a successful chunk's parsed answers are copied into
the slot array. -/
def runChunks (w : World) : List (List Question) → Nat → List String → Nat → RunOut
  | [], _, ans, t => ⟨ans, false, [], [], t⟩
  | c :: cs, start, ans, t =>
    if isDone w.cancelAt t then ⟨ans, true, [], [], t⟩
    else if isDone w.cancelAt (t + 1) then
      ⟨ans, true, [(start, buildBatchPrompt c)], [], t + 1⟩
    else
      match chunkShot w c with
      | .error _ =>
        let po := runPerQ w c start ans (t + 1)
        if po.cancelled then
          { po with chunkCalls := (start, buildBatchPrompt c) :: po.chunkCalls }
        else
          let out := runChunks w cs (start + c.length) po.answers po.finalTime
          { out with
            chunkCalls := (start, buildBatchPrompt c) :: out.chunkCalls
            writes := po.writes ++ out.writes }
      | .ok resp =>
        let parsed := parseBatchAnswers (w.parse resp).1 (w.parse resp).2 c.length
        let out := runChunks w cs (start + c.length) (writeAll ans start parsed) (t + 1)
        { out with
          chunkCalls := (start, buildBatchPrompt c) :: out.chunkCalls
          writes := chunkWrites start (t + 1) parsed ++ out.writes }

/-- The fixed-size partition of the question list produced by the
`for batchStart := 0; batchStart < len(questions); batchStart += batchSize`
loop (fuel-based so that it is structural). -/
def chunksOfAux (k : Nat) : Nat → List Question → List (List Question)
  | 0, _ => []
  | _, [] => []
  | fuel + 1, q :: rest => ((q :: rest).take k) :: chunksOfAux k fuel ((q :: rest).drop k)

/-- The chunk partition of a question list. -/
def chunksOf (k : Nat) (l : List Question) : List (List Question) :=
  chunksOfAux k l.length l

/-- Each chunk paired with its `batchStart` index. -/
def withStarts : Nat → List (List Question) → List (Nat × List Question)
  | _, [] => []
  | start, c :: cs => (start, c) :: withStarts (start + c.length) cs

/-- Embeds `getBatchAnswers`: empty input short-circuits; otherwise the chunk
loop runs over the partition with the all-empty slot array. -/
def getBatchAnswers (w : World) (qs : List Question) : RunOut :=
  if qs.isEmpty then ⟨[], false, [], [], 0⟩
  else runChunks w (chunksOf batchSize qs) 0 (List.replicate qs.length "") 0

/-- Replaying a write trace over a slot array. -/
def applyWrites : List (Nat × String × Nat) → List String → List String
  | [], a => a
  | (i, v, _) :: ws, a => applyWrites ws (a.set i v)

/-- The value a chunk's slot `j` ends with when the run is never
cancelled: the parsed chunk answer on chunk success, otherwise the
degraded per-question result (empty on per-question failure). -/
def chunkSlot (w : World) (c : List Question) (j : Nat) : String :=
  match chunkShot w c with
  | .ok resp => (parseBatchAnswers (w.parse resp).1 (w.parse resp).2 c.length).getD j ""
  | .error _ =>
    match singleShot w (c.getD j default) with
    | .ok a => a
    | .error _ => ""

/-! Basic slot-array lemmas. -/

theorem getD_set_ne (l : List String) (i j : Nat) (v d : String) (h : i ≠ j) :
    (l.set i v).getD j d = l.getD j d := by
  simp [List.getD_eq_getElem?_getD, List.getElem?_set_ne h]

theorem getD_set_self (l : List String) (i : Nat) (v d : String) (h : i < l.length) :
    (l.set i v).getD i d = v := by
  simp [List.getD_eq_getElem?_getD, List.getElem?_set_eq_of_lt v h]

theorem writeAll_length : ∀ (vs ans : List String) (start : Nat),
    (writeAll ans start vs).length = ans.length := by
  intro vs
  induction vs with
  | nil => intro ans start; rfl
  | cons v rest ih =>
    intro ans start
    rw [writeAll, ih]
    simp

theorem writeAll_getD_lt (vs : List String) :
    ∀ (ans : List String) (start i : Nat) (d : String), i < start →
      (writeAll ans start vs).getD i d = ans.getD i d := by
  induction vs with
  | nil => intro ans start i d _; rfl
  | cons v rest ih =>
    intro ans start i d hi
    rw [writeAll, ih _ _ _ _ (Nat.lt_succ_of_lt hi)]
    exact getD_set_ne _ _ _ _ _ (by omega)

theorem writeAll_getD_ge (vs : List String) :
    ∀ (ans : List String) (start i : Nat) (d : String), start + vs.length ≤ i →
      (writeAll ans start vs).getD i d = ans.getD i d := by
  induction vs with
  | nil => intro ans start i d _; rfl
  | cons v rest ih =>
    intro ans start i d hi
    simp only [List.length_cons] at hi
    rw [writeAll, ih _ _ _ _ (by omega)]
    exact getD_set_ne _ _ _ _ _ (by omega)

theorem writeAll_getD_in (vs : List String) :
    ∀ (ans : List String) (start j : Nat), j < vs.length →
      start + j < ans.length →
      (writeAll ans start vs).getD (start + j) "" = vs.getD j "" := by
  induction vs with
  | nil => intro ans start j hj _; simp at hj
  | cons v rest ih =>
    intro ans start j hj hlen
    cases j with
    | zero =>
      rw [writeAll, writeAll_getD_lt rest _ _ _ _ (by omega), Nat.add_zero]
      rw [getD_set_self _ _ _ _ (by omega)]
      rfl
    | succ j' =>
      have hj' : j' < rest.length := by simpa using hj
      rw [writeAll]
      have harith : start + (j' + 1) = (start + 1) + j' := by omega
      rw [harith, ih _ _ _ hj' (by simp; omega)]
      rfl

theorem applyWrites_append (xs ys : List (Nat × String × Nat)) :
    ∀ a, applyWrites (xs ++ ys) a = applyWrites ys (applyWrites xs a) := by
  induction xs with
  | nil => intro a; rfl
  | cons x xs ih =>
    intro a
    obtain ⟨i, v, t⟩ := x
    simp only [List.cons_append, applyWrites]
    exact ih _

theorem applyWrites_getD_not_target :
    ∀ (ws : List (Nat × String × Nat)) (a : List String) (i : Nat) (d : String),
      (∀ e ∈ ws, e.1 ≠ i) → (applyWrites ws a).getD i d = a.getD i d := by
  intro ws
  induction ws with
  | nil => intro a i d _; rfl
  | cons e es ih =>
    intro a i d h
    obtain ⟨j, v, t⟩ := e
    rw [applyWrites, ih _ _ _ fun x hx => h x (List.mem_cons_of_mem _ hx)]
    exact getD_set_ne _ _ _ _ _ (h (j, v, t) (List.mem_cons_self _ _))

theorem writeAll_eq_applyWrites (vs : List String) :
    ∀ (ans : List String) (start t : Nat),
      writeAll ans start vs = applyWrites (chunkWrites start t vs) ans := by
  induction vs with
  | nil => intro ans start t; rfl
  | cons v rest ih =>
    intro ans start t
    rw [writeAll, chunkWrites, applyWrites, ih]

theorem chunkWrites_times (start t : Nat) : ∀ (vs : List String),
    ∀ e ∈ chunkWrites start t vs, e.2.2 = t := by
  intro vs
  induction vs generalizing start with
  | nil => intro e he; simp [chunkWrites] at he
  | cons v rest ih =>
    intro e he
    rw [chunkWrites] at he
    rcases List.mem_cons.mp he with h | h
    · rw [h]
    · exact ih (start + 1) e h

theorem foldl_length_preserved {β : Type} (f : List String → β → List String)
    (hf : ∀ a m, (f a m).length = a.length) :
    ∀ (l : List β) (a : List String), (l.foldl f a).length = a.length := by
  intro l
  induction l with
  | nil => intro a; rfl
  | cons x xs ih =>
    intro a
    rw [List.foldl_cons, ih, hf]

/-- Embeds `parseBatchAnswers` always returns exactly `questionCount` slots
(make-initialized, in-bounds writes only). -/
theorem parseBatchAnswers_length (ms altMatches : List (Nat × String))
    (questionCount : Nat) :
    (parseBatchAnswers ms altMatches questionCount).length = questionCount := by
  unfold parseBatchAnswers
  dsimp only
  have h1 : ∀ (a : List String) (m : Nat × String),
      (if 1 ≤ m.1 ∧ m.1 ≤ questionCount then
        a.set (m.1 - 1) (cleanPrimaryAnswer m.2) else a).length = a.length := by
    intro a m
    split <;> simp
  have h2 : ∀ (a : List String) (m : Nat × String),
      (if 1 ≤ m.1 ∧ m.1 ≤ questionCount ∧ a.getD (m.1 - 1) "" = "" then
        a.set (m.1 - 1) (cleanAltAnswer m.2) else a).length = a.length := by
    intro a m
    split <;> simp
  split
  · rw [foldl_length_preserved _ h2, foldl_length_preserved _ h1]
    simp
  · rw [foldl_length_preserved _ h1]
    simp

/-! Per-question degrade loop lemmas. -/

theorem isDone_none (t : Nat) : isDone none t = false := rfl

theorem isDone_some_iff (k t : Nat) : isDone (some k) t = true ↔ k ≤ t := by
  simp [isDone]

theorem runPerQ_length (w : World) : ∀ (qs : List Question) (g : Nat)
    (ans : List String) (t : Nat),
    (runPerQ w qs g ans t).answers.length = ans.length := by
  intro qs
  induction qs with
  | nil => intro g ans t; rfl
  | cons q rest ih =>
    intro g ans t
    simp only [runPerQ]
    split
    · rfl
    · split
      · rfl
      · cases hs : singleShot w q with
        | error e => simp only [hs]; exact ih _ _ _
        | ok a =>
          simp only [hs]
          rw [show ({ runPerQ w rest (g + 1) (ans.set g a) (t + 1) with
              writes := (g, a, t + 1) ::
                (runPerQ w rest (g + 1) (ans.set g a) (t + 1)).writes } : RunOut).answers
              = (runPerQ w rest (g + 1) (ans.set g a) (t + 1)).answers from rfl]
          rw [ih]
          simp

theorem runPerQ_writes_eq (w : World) : ∀ (qs : List Question) (g : Nat)
    (ans : List String) (t : Nat),
    (runPerQ w qs g ans t).answers =
      applyWrites (runPerQ w qs g ans t).writes ans := by
  intro qs
  induction qs with
  | nil => intro g ans t; rfl
  | cons q rest ih =>
    intro g ans t
    simp only [runPerQ]
    split
    · rfl
    · split
      · rfl
      · cases hs : singleShot w q with
        | error e => simp only [hs]; exact ih _ _ _
        | ok a =>
          simp only [hs]
          exact ih _ _ _

theorem runPerQ_cancel (w : World) (k : Nat) (hk : w.cancelAt = some k) :
    ∀ (qs : List Question) (g : Nat) (ans : List String) (t : Nat), t ≤ k →
      ((runPerQ w qs g ans t).cancelled = true →
        (runPerQ w qs g ans t).finalTime = k) ∧
      ((runPerQ w qs g ans t).cancelled = false →
        (runPerQ w qs g ans t).finalTime ≤ k) ∧
      (∀ e ∈ (runPerQ w qs g ans t).writes, e.2.2 < k) := by
  intro qs
  induction qs with
  | nil =>
    intro g ans t ht
    refine ⟨fun hc => ?_, fun _ => ht, fun e he => ?_⟩
    · exact absurd hc (by simp [runPerQ])
    · simp [runPerQ] at he
  | cons q rest ih =>
    intro g ans t ht
    simp only [runPerQ, hk]
    by_cases h1 : k ≤ t
    · rw [if_pos ((isDone_some_iff k t).mpr h1)]
      exact ⟨fun _ => Nat.le_antisymm ht h1, fun hc => by simp at hc,
        fun e he => by simp at he⟩
    · rw [if_neg (by simp [isDone_some_iff]; omega)]
      by_cases h2 : k ≤ t + 1
      · rw [if_pos ((isDone_some_iff k (t + 1)).mpr h2)]
        exact ⟨fun _ => show t + 1 = k by omega, fun hc => by simp at hc,
          fun e he => by simp at he⟩
      · rw [if_neg (by simp [isDone_some_iff]; omega)]
        have ht' : t + 1 ≤ k := by omega
        cases hs : singleShot w q with
        | error e =>
          exact ih (g + 1) ans (t + 1) ht'
        | ok a =>
          obtain ⟨c1, c2, c3⟩ := ih (g + 1) (ans.set g a) (t + 1) ht'
          refine ⟨c1, c2, fun e he => ?_⟩
          rcases List.mem_cons.mp he with h | h
          · rw [h]; simpa using h2
          · exact c3 e h

theorem runPerQ_nocancel_frame (w : World) (hw : w.cancelAt = none) :
    ∀ (qs : List Question) (g : Nat) (ans : List String) (t : Nat),
      (runPerQ w qs g ans t).cancelled = false ∧
      (∀ i d, (i < g ∨ g + qs.length ≤ i) →
        (runPerQ w qs g ans t).answers.getD i d = ans.getD i d) := by
  intro qs
  induction qs with
  | nil => intro g ans t; exact ⟨rfl, fun i d _ => rfl⟩
  | cons q rest ih =>
    intro g ans t
    simp only [runPerQ, hw, isDone_none, Bool.false_eq_true, if_false]
    cases hs : singleShot w q with
    | error e =>
      obtain ⟨hc, hf⟩ := ih (g + 1) ans (t + 1)
      refine ⟨hc, fun i d hi => hf i d ?_⟩
      simp only [List.length_cons] at hi
      rcases hi with hi | hi
      · exact Or.inl (by omega)
      · exact Or.inr (by omega)
    | ok a =>
      obtain ⟨hc, hf⟩ := ih (g + 1) (ans.set g a) (t + 1)
      refine ⟨hc, fun i d hi => ?_⟩
      have hi' : i < g + 1 ∨ (g + 1) + rest.length ≤ i := by
        simp only [List.length_cons] at hi
        rcases hi with hi | hi
        · exact Or.inl (by omega)
        · exact Or.inr (by omega)
      rw [show ({ runPerQ w rest (g + 1) (ans.set g a) (t + 1) with
          writes := (g, a, t + 1) ::
            (runPerQ w rest (g + 1) (ans.set g a) (t + 1)).writes } : RunOut).answers
          = (runPerQ w rest (g + 1) (ans.set g a) (t + 1)).answers from rfl]
      rw [hf i d hi']
      refine getD_set_ne _ _ _ _ _ ?_
      rcases hi with hi | hi
      · omega
      · simp only [List.length_cons] at hi
        omega

theorem runPerQ_nocancel_slot (w : World) (hw : w.cancelAt = none) :
    ∀ (qs : List Question) (g : Nat) (ans : List String) (t : Nat) (j : Nat),
      j < qs.length → g + j < ans.length →
      (runPerQ w qs g ans t).answers.getD (g + j) "" =
        (match singleShot w (qs.getD j default) with
         | .ok a => a
         | .error _ => ans.getD (g + j) "") := by
  intro qs
  induction qs with
  | nil => intro g ans t j hj _; simp at hj
  | cons q rest ih =>
    intro g ans t j hj hlen
    simp only [runPerQ, hw, isDone_none, Bool.false_eq_true, if_false]
    cases j with
    | zero =>
      simp only [Nat.add_zero] at hlen ⊢
      cases hs : singleShot w q with
      | error e =>
        simp only [hs, List.getD_cons_zero]
        exact (runPerQ_nocancel_frame w hw rest (g + 1) ans (t + 1)).2 g "" (Or.inl (by omega))
      | ok a =>
        simp only [hs, List.getD_cons_zero]
        rw [show ({ runPerQ w rest (g + 1) (ans.set g a) (t + 1) with
            writes := (g, a, t + 1) ::
              (runPerQ w rest (g + 1) (ans.set g a) (t + 1)).writes } : RunOut).answers
            = (runPerQ w rest (g + 1) (ans.set g a) (t + 1)).answers from rfl]
        rw [(runPerQ_nocancel_frame w hw rest (g + 1) (ans.set g a) (t + 1)).2 g ""
          (Or.inl (by omega))]
        exact getD_set_self _ _ _ _ hlen
    | succ j' =>
      have hj' : j' < rest.length := by simpa using hj
      have harith : g + (j' + 1) = (g + 1) + j' := by omega
      cases hs : singleShot w q with
      | error e =>
        simp only [hs, List.getD_cons_succ]
        rw [harith]
        exact ih (g + 1) ans (t + 1) j' hj' (by omega)
      | ok a =>
        simp only [hs, List.getD_cons_succ]
        rw [show ({ runPerQ w rest (g + 1) (ans.set g a) (t + 1) with
            writes := (g, a, t + 1) ::
              (runPerQ w rest (g + 1) (ans.set g a) (t + 1)).writes } : RunOut).answers
            = (runPerQ w rest (g + 1) (ans.set g a) (t + 1)).answers from rfl]
        rw [harith, ih (g + 1) (ans.set g a) (t + 1) j' hj' (by simp; omega)]
        have : (ans.set g a).getD (g + 1 + j') "" = ans.getD (g + 1 + j') "" :=
          getD_set_ne _ _ _ _ _ (by omega)
        rw [this]

/-! Chunk-loop lemmas. -/

/-- Total length of a chunk partition. -/
def sumLens (cs : List (List Question)) : Nat :=
  (cs.map List.length).sum

theorem runChunks_length (w : World) : ∀ (cs : List (List Question)) (start : Nat)
    (ans : List String) (t : Nat),
    (runChunks w cs start ans t).answers.length = ans.length := by
  intro cs
  induction cs with
  | nil => intro start ans t; rfl
  | cons c rest ih =>
    intro start ans t
    simp only [runChunks]
    split
    · rfl
    · split
      · rfl
      · cases hs : chunkShot w c with
        | error e =>
          simp only [hs]
          split
          · exact runPerQ_length w c start ans (t + 1)
          · rw [show ∀ (o : RunOut) cc ws, ({ o with chunkCalls := cc, writes := ws } : RunOut).answers = o.answers from fun _ _ _ => rfl]
            rw [ih, runPerQ_length]
        | ok resp =>
          simp only [hs]
          rw [show ∀ (o : RunOut) cc ws, ({ o with chunkCalls := cc, writes := ws } : RunOut).answers = o.answers from fun _ _ _ => rfl]
          rw [ih, writeAll_length]

theorem runChunks_writes_eq (w : World) : ∀ (cs : List (List Question)) (start : Nat)
    (ans : List String) (t : Nat),
    (runChunks w cs start ans t).answers =
      applyWrites (runChunks w cs start ans t).writes ans := by
  intro cs
  induction cs with
  | nil => intro start ans t; rfl
  | cons c rest ih =>
    intro start ans t
    simp only [runChunks]
    split
    · rfl
    · split
      · rfl
      · cases hs : chunkShot w c with
        | error e =>
          simp only [hs]
          split
          · exact runPerQ_writes_eq w c start ans (t + 1)
          · rw [show ∀ (o : RunOut) cc ws, ({ o with chunkCalls := cc, writes := ws } : RunOut).answers = o.answers from fun _ _ _ => rfl]
            rw [applyWrites_append, ← runPerQ_writes_eq]
            exact ih _ _ _
        | ok resp =>
          simp only [hs]
          rw [show ∀ (o : RunOut) cc ws, ({ o with chunkCalls := cc, writes := ws } : RunOut).answers = o.answers from fun _ _ _ => rfl]
          rw [applyWrites_append, ← writeAll_eq_applyWrites]
          exact ih _ _ _

theorem runChunks_cancel (w : World) (k : Nat) (hk : w.cancelAt = some k) :
    ∀ (cs : List (List Question)) (start : Nat) (ans : List String) (t : Nat), t ≤ k →
      ((runChunks w cs start ans t).cancelled = true →
        (runChunks w cs start ans t).finalTime = k) ∧
      ((runChunks w cs start ans t).cancelled = false →
        (runChunks w cs start ans t).finalTime ≤ k) ∧
      (∀ e ∈ (runChunks w cs start ans t).writes, e.2.2 < k) := by
  intro cs
  induction cs with
  | nil =>
    intro start ans t ht
    refine ⟨fun hc => absurd hc (by simp [runChunks]), fun _ => ht, fun e he => ?_⟩
    simp [runChunks] at he
  | cons c rest ih =>
    intro start ans t ht
    simp only [runChunks, hk]
    by_cases h1 : k ≤ t
    · rw [if_pos ((isDone_some_iff k t).mpr h1)]
      exact ⟨fun _ => Nat.le_antisymm ht h1, fun hc => by simp at hc,
        fun e he => by simp at he⟩
    · rw [if_neg (by simp [isDone_some_iff]; omega)]
      by_cases h2 : k ≤ t + 1
      · rw [if_pos ((isDone_some_iff k (t + 1)).mpr h2)]
        exact ⟨fun _ => show t + 1 = k by omega, fun hc => by simp at hc,
          fun e he => by simp at he⟩
      · rw [if_neg (by simp [isDone_some_iff]; omega)]
        have ht' : t + 1 ≤ k := by omega
        cases hs : chunkShot w c with
        | error e =>
          simp only [hs]
          obtain ⟨p1, p2, p3⟩ := runPerQ_cancel w k hk c start ans (t + 1) ht'
          split
          · rename_i hpc
            refine ⟨fun _ => p1 hpc, fun hcf => ?_, fun e2 he2 => p3 e2 he2⟩
            exact absurd (hpc.symm.trans hcf) (by simp)
          · rename_i hpc
            have hpc' : (runPerQ w c start ans (t + 1)).cancelled = false := by
              simpa using hpc
            obtain ⟨q1, q2, q3⟩ := ih (start + c.length)
              (runPerQ w c start ans (t + 1)).answers
              (runPerQ w c start ans (t + 1)).finalTime (p2 hpc')
            refine ⟨q1, q2, fun e he => ?_⟩
            rcases List.mem_append.mp he with h | h
            · exact p3 e h
            · exact q3 e h
        | ok resp =>
          simp only [hs]
          obtain ⟨q1, q2, q3⟩ := ih (start + c.length) _ (t + 1) ht'
          refine ⟨q1, q2, fun e he => ?_⟩
          rcases List.mem_append.mp he with h | h
          · rw [chunkWrites_times start (t + 1) _ e h]
            omega
          · exact q3 e h

theorem runChunks_nocancel (w : World) (hw : w.cancelAt = none) :
    ∀ (cs : List (List Question)) (start : Nat) (ans : List String) (t : Nat),
      start + sumLens cs ≤ ans.length →
      (∀ i, start ≤ i → ans.getD i "" = "") →
      (runChunks w cs start ans t).cancelled = false ∧
      (runChunks w cs start ans t).chunkCalls =
        (withStarts start cs).map (fun p => (p.1, buildBatchPrompt p.2)) ∧
      (∀ p ∈ withStarts start cs, ∀ j, j < p.2.length →
        (runChunks w cs start ans t).answers.getD (p.1 + j) "" = chunkSlot w p.2 j) ∧
      (∀ i d, i < start → (runChunks w cs start ans t).answers.getD i d = ans.getD i d) := by
  intro cs
  induction cs with
  | nil =>
    intro start ans t _ _
    exact ⟨rfl, rfl, fun p hp => by simp [withStarts] at hp, fun i d _ => rfl⟩
  | cons c rest ih =>
    intro start ans t hfit hblank
    have hfit' : start + c.length + sumLens rest ≤ ans.length := by
      simp only [sumLens, List.map_cons, List.sum_cons] at hfit ⊢
      omega
    simp only [runChunks, hw, isDone_none, Bool.false_eq_true, if_false]
    cases hs : chunkShot w c with
    | error e =>
      simp only [hs]
      have hpo := runPerQ_nocancel_frame w hw c start ans (t + 1)
      rw [if_neg (by rw [hpo.1]; simp)]
      set po := runPerQ w c start ans (t + 1) with hpo_def
      have hlen_po : po.answers.length = ans.length := runPerQ_length w c start ans (t + 1)
      have hblank' : ∀ i, start + c.length ≤ i → po.answers.getD i "" = "" := by
        intro i hi
        rw [hpo.2 i "" (Or.inr hi)]
        exact hblank i (by omega)
      obtain ⟨o1, o2, o3, o4⟩ := ih (start + c.length) po.answers po.finalTime
        (by rw [hlen_po]; exact hfit') hblank'
      refine ⟨o1, ?_, ?_, ?_⟩
      · rw [show ∀ (o : RunOut) cc ws, ({ o with chunkCalls := cc, writes := ws } : RunOut).chunkCalls = cc from fun _ _ _ => rfl]
        rw [o2]
        rfl
      · intro p hp j hj
        rw [show ∀ (o : RunOut) cc ws, ({ o with chunkCalls := cc, writes := ws } : RunOut).answers = o.answers from fun _ _ _ => rfl]
        rcases List.mem_cons.mp hp with hp | hp
        · subst hp
          dsimp only at hj ⊢
          rw [o4 (start + j) "" (by omega)]
          rw [runPerQ_nocancel_slot w hw c start ans (t + 1) j hj (by omega)]
          rw [chunkSlot, hs]
          cases hss : singleShot w (c.getD j default) with
          | ok a => rfl
          | error e2 =>
            rw [hblank (start + j) (by omega)]
        · exact o3 p hp j hj
      · intro i d hi
        rw [show ∀ (o : RunOut) cc ws, ({ o with chunkCalls := cc, writes := ws } : RunOut).answers = o.answers from fun _ _ _ => rfl]
        rw [o4 i d (by omega)]
        exact hpo.2 i d (Or.inl hi)
    | ok resp =>
      simp only [hs]
      set parsed := parseBatchAnswers (w.parse resp).1 (w.parse resp).2 c.length with hparsed
      have hplen : parsed.length = c.length := parseBatchAnswers_length _ _ _
      have hwlen : (writeAll ans start parsed).length = ans.length := writeAll_length _ _ _
      have hblank' : ∀ i, start + c.length ≤ i →
          (writeAll ans start parsed).getD i "" = "" := by
        intro i hi
        rw [writeAll_getD_ge parsed ans start i "" (by omega)]
        exact hblank i (by omega)
      obtain ⟨o1, o2, o3, o4⟩ := ih (start + c.length) (writeAll ans start parsed) (t + 1)
        (by rw [hwlen]; exact hfit') hblank'
      refine ⟨o1, ?_, ?_, ?_⟩
      · rw [show ∀ (o : RunOut) cc ws, ({ o with chunkCalls := cc, writes := ws } : RunOut).chunkCalls = cc from fun _ _ _ => rfl]
        rw [o2]
        rfl
      · intro p hp j hj
        rw [show ∀ (o : RunOut) cc ws, ({ o with chunkCalls := cc, writes := ws } : RunOut).answers = o.answers from fun _ _ _ => rfl]
        rcases List.mem_cons.mp hp with hp | hp
        · subst hp
          dsimp only at hj ⊢
          rw [o4 (start + j) "" (by omega)]
          rw [writeAll_getD_in parsed ans start j (by omega) (by omega)]
          rw [chunkSlot, hs]
        · exact o3 p hp j hj
      · intro i d hi
        rw [show ∀ (o : RunOut) cc ws, ({ o with chunkCalls := cc, writes := ws } : RunOut).answers = o.answers from fun _ _ _ => rfl]
        rw [o4 i d (by omega)]
        exact writeAll_getD_lt parsed ans start i d hi

/-! Chunk-partition lemmas. -/

theorem chunksOfAux_nil (k : Nat) : ∀ f, chunksOfAux k f [] = [] := by
  intro f
  cases f <;> rfl

theorem chunksOfAux_fuel_congr (k : Nat) (hk : 0 < k) :
    ∀ (f1 : Nat) (l : List Question) (f2 : Nat), l.length ≤ f1 → l.length ≤ f2 →
      chunksOfAux k f1 l = chunksOfAux k f2 l := by
  intro f1
  induction f1 with
  | zero =>
    intro l f2 h1 _
    have hl : l = [] := List.length_eq_zero.mp (Nat.le_zero.mp h1)
    subst hl
    rw [chunksOfAux_nil, chunksOfAux_nil]
  | succ f ih =>
    intro l f2 h1 h2
    cases l with
    | nil => rw [chunksOfAux_nil, chunksOfAux_nil]
    | cons q rest =>
      cases f2 with
      | zero => simp at h2
      | succ f2' =>
        simp only [chunksOfAux]
        congr 1
        apply ih
        · rw [List.length_drop]
          simp only [List.length_cons] at h1 ⊢
          omega
        · rw [List.length_drop]
          simp only [List.length_cons] at h2 ⊢
          omega

theorem chunksOf_cons_eq (k : Nat) (hk : 0 < k) (l : List Question) (hl : l ≠ []) :
    chunksOf k l = l.take k :: chunksOf k (l.drop k) := by
  obtain ⟨q, rest, rfl⟩ := List.exists_cons_of_ne_nil hl
  show chunksOfAux k (q :: rest).length (q :: rest) = _
  rw [show (q :: rest).length = rest.length + 1 from rfl]
  simp only [chunksOfAux]
  congr 1
  apply chunksOfAux_fuel_congr k hk
  · rw [List.length_drop]
    simp only [List.length_cons]
    omega
  · exact Nat.le_refl _

theorem chunksOfAux_flatten (k : Nat) (hk : 0 < k) :
    ∀ (f : Nat) (l : List Question), l.length ≤ f →
      (chunksOfAux k f l).flatten = l := by
  intro f
  induction f with
  | zero =>
    intro l h
    have hl : l = [] := List.length_eq_zero.mp (Nat.le_zero.mp h)
    subst hl
    rfl
  | succ f ih =>
    intro l h
    cases l with
    | nil => rfl
    | cons q rest =>
      simp only [chunksOfAux, List.flatten_cons]
      rw [ih _ (by rw [List.length_drop]; simp only [List.length_cons] at h ⊢; omega)]
      exact List.take_append_drop k (q :: rest)

theorem sumLens_chunksOf (k : Nat) (hk : 0 < k) (l : List Question) :
    sumLens (chunksOf k l) = l.length := by
  unfold sumLens chunksOf
  rw [← List.length_flatten, chunksOfAux_flatten k hk l.length l (Nat.le_refl _)]

theorem withStarts_length : ∀ (cs : List (List Question)) (s : Nat),
    (withStarts s cs).length = cs.length := by
  intro cs
  induction cs with
  | nil => intro s; rfl
  | cons c rest ih => intro s; simp [withStarts, ih]

theorem replicate_getD (n i : Nat) : (List.replicate n "").getD i "" = "" := by
  rw [List.getD_eq_getElem?_getD, List.getElem?_replicate]
  split <;> rfl

/-! Claim theorems for the batched resolver. -/

/-- C1: For every question list and every oracle world,
`getBatchAnswers` returns an answer list whose length equals the number of
questions — regardless of chunk failures, per-question failures and
cancellation — and every slot the run never wrote is present as the empty
string (slots are never omitted). -/
theorem resolver_length_and_slots (w : World) (qs : List Question) :
    (getBatchAnswers w qs).answers.length = qs.length ∧
    (∀ i, (∀ e ∈ (getBatchAnswers w qs).writes, e.1 ≠ i) →
      (getBatchAnswers w qs).answers.getD i "" = "") := by
  unfold getBatchAnswers
  split
  · rename_i hq
    have hq' : qs = [] := by simpa [List.isEmpty_iff] using hq
    subst hq'
    exact ⟨rfl, fun i _ => rfl⟩
  · constructor
    · rw [runChunks_length]
      simp
    · intro i hni
      rw [runChunks_writes_eq, applyWrites_getD_not_target _ _ _ _ hni]
      exact replicate_getD _ _

/-- Witness for C1: with no credentialed model every call fails, so a
2-question run performs no writes and returns two empty slots. -/
theorem resolver_length_and_slots_witness :
    (getBatchAnswers ⟨fun _ => [], fun _ => ([], []), none⟩
      [⟨.single, "q1", []⟩, ⟨.fill, "q2", []⟩]).answers.length = 2 ∧
    (getBatchAnswers ⟨fun _ => [], fun _ => ([], []), none⟩
      [⟨.single, "q1", []⟩, ⟨.fill, "q2", []⟩]).answers.getD 0 "" = "" := by
  refine ⟨(resolver_length_and_slots _ _).1,
    (resolver_length_and_slots _ _).2 0 ?_⟩
  intro e he
  have hw : (getBatchAnswers ⟨fun _ => [], fun _ => ([], []), none⟩
      [⟨.single, "q1", []⟩, ⟨.fill, "q2", []⟩]).writes = [] := rfl
  rw [hw] at he
  simp at he

theorem chunksOf_25 (qs : List Question) (h : qs.length = 25) :
    chunksOf batchSize qs = [qs.take 10, (qs.drop 10).take 10, qs.drop 20] := by
  have h10 : (0 : Nat) < 10 := by omega
  have e1 : chunksOf 10 qs = qs.take 10 :: chunksOf 10 (qs.drop 10) :=
    chunksOf_cons_eq 10 h10 qs (by intro hn; rw [hn] at h; simp at h)
  have hd1 : (qs.drop 10).length = 15 := by rw [List.length_drop, h]
  have e2 : chunksOf 10 (qs.drop 10) =
      (qs.drop 10).take 10 :: chunksOf 10 ((qs.drop 10).drop 10) :=
    chunksOf_cons_eq 10 h10 _ (by intro hn; rw [hn] at hd1; simp at hd1)
  have hdd : (qs.drop 10).drop 10 = qs.drop 20 := by rw [List.drop_drop]
  have hd2 : (qs.drop 20).length = 5 := by rw [List.length_drop, h]
  have e3 : chunksOf 10 (qs.drop 20) =
      (qs.drop 20).take 10 :: chunksOf 10 ((qs.drop 20).drop 10) :=
    chunksOf_cons_eq 10 h10 _ (by intro hn; rw [hn] at hd2; simp at hd2)
  have ht3 : (qs.drop 20).take 10 = qs.drop 20 :=
    List.take_of_length_le (by omega)
  have hd3 : (qs.drop 20).drop 10 = [] :=
    List.drop_eq_nil_of_le (by omega)
  show chunksOf 10 qs = _
  rw [e1, e2, hdd, e3, ht3, hd3]
  rfl

/-- C2: For a 25-question input (chunk size 10) with no cancellation,
the resolver issues exactly 3 chunk requests at start indices 0, 10, 20;
the N-th request's composite prompt is built (`buildBatchPrompt`) from
exactly the questions at indices `[10(N-1), 10N)` of the input in input
order, and the chunk sizes are 10, 10 and 5. -/
theorem chunking_25 (w : World) (qs : List Question) (hw : w.cancelAt = none)
    (h : qs.length = 25) :
    (getBatchAnswers w qs).chunkCalls =
      [(0, buildBatchPrompt (qs.take 10)),
       (10, buildBatchPrompt ((qs.drop 10).take 10)),
       (20, buildBatchPrompt (qs.drop 20))] ∧
    (qs.take 10).length = 10 ∧ ((qs.drop 10).take 10).length = 10 ∧
    (qs.drop 20).length = 5 := by
  have hl1 : (qs.take 10).length = 10 := by rw [List.length_take, h]; decide
  have hd1 : (qs.drop 10).length = 15 := by rw [List.length_drop, h]
  have hl2 : ((qs.drop 10).take 10).length = 10 := by rw [List.length_take, hd1]; decide
  have hl3 : (qs.drop 20).length = 5 := by rw [List.length_drop, h]
  refine ⟨?_, hl1, hl2, hl3⟩
  unfold getBatchAnswers
  rw [if_neg (by simp [List.isEmpty_iff]; intro hn; rw [hn] at h; simp at h)]
  have hfit : 0 + sumLens (chunksOf batchSize qs) ≤ (List.replicate qs.length "").length := by
    rw [sumLens_chunksOf batchSize (by decide) qs]
    simp
  obtain ⟨-, o2, -, -⟩ := runChunks_nocancel w hw (chunksOf batchSize qs) 0
    (List.replicate qs.length "") 0 hfit (fun i _ => replicate_getD _ _)
  rw [o2, chunksOf_25 qs h]
  simp [withStarts, hl1, hl2]

/-- Witness for C2 at 25 copies of a concrete question and the trivial
never-cancelled world. -/
theorem chunking_25_witness :
    (getBatchAnswers ⟨fun _ => [], fun _ => ([], []), none⟩
        (List.replicate 25 ⟨.single, "q", []⟩)).chunkCalls.length = 3 ∧
    ((List.replicate 25 (⟨.single, "q", []⟩ : Question)).take 10).length = 10 ∧
    ((List.replicate 25 (⟨.single, "q", []⟩ : Question)).drop 20).length = 5 := by
  have h := chunking_25 ⟨fun _ => [], fun _ => ([], []), none⟩
    (List.replicate 25 ⟨.single, "q", []⟩) rfl (by simp)
  exact ⟨by rw [h.1]; rfl, h.2.1, h.2.2.2⟩

/-- C5: With no cancellation: the run never aborts (not cancelled, and
one chunk request is issued for every chunk of the partition regardless of
failures), and every question of a failed chunk is degraded to a single
per-question resolution through the same per-profile fallback
(`managerGetAnswer` over `profileResults`, via `singleShot`), whose
failure leaves that slot as the empty string. -/
theorem chunk_failure_degrades (w : World) (qs : List Question)
    (hw : w.cancelAt = none) :
    (getBatchAnswers w qs).cancelled = false ∧
    (getBatchAnswers w qs).chunkCalls.length = (chunksOf batchSize qs).length ∧
    (∀ p ∈ withStarts 0 (chunksOf batchSize qs), ∀ j, j < p.2.length →
      ∀ e, chunkShot w p.2 = .error e →
        (getBatchAnswers w qs).answers.getD (p.1 + j) "" =
          (match singleShot w (p.2.getD j default) with
           | .ok a => a
           | .error _ => "")) := by
  unfold getBatchAnswers
  split
  · rename_i hq
    have hq' : qs = [] := by simpa [List.isEmpty_iff] using hq
    subst hq'
    refine ⟨rfl, rfl, fun p hp => ?_⟩
    simp [chunksOf, chunksOfAux, withStarts] at hp
  · have hfit : 0 + sumLens (chunksOf batchSize qs) ≤ (List.replicate qs.length "").length := by
      rw [sumLens_chunksOf batchSize (by decide) qs]
      simp
    obtain ⟨o1, o2, o3, -⟩ := runChunks_nocancel w hw (chunksOf batchSize qs) 0
      (List.replicate qs.length "") 0 hfit (fun i _ => replicate_getD _ _)
    refine ⟨o1, by rw [o2, List.length_map, withStarts_length], ?_⟩
    intro p hp j hj e he
    rw [o3 p hp j hj, chunkSlot, he]

/-- The oracle world of the C5 witness: the chunk prompt has no usable
profile (the manager fails), the single-question prompt succeeds with
`"A"`. -/
def witnessWorld5 : World :=
  ⟨fun p => if p = buildSinglePrompt ⟨.single, "q", [⟨"A", "x"⟩]⟩
    then [⟨"A", none⟩] else [], fun _ => ([], []), none⟩

/-- Witness for C5: the chunk request fails, the degraded per-question
request answers `"A"`, and slot 0 receives it. -/
theorem chunk_failure_degrades_witness :
    (getBatchAnswers witnessWorld5 [⟨.single, "q", [⟨"A", "x"⟩]⟩]).answers.getD 0 "" = "A" := by
  have h := (chunk_failure_degrades witnessWorld5 [⟨.single, "q", [⟨"A", "x"⟩]⟩] rfl).2.2
    (0, [⟨.single, "q", [⟨"A", "x"⟩]⟩]) (by decide) 0 (by decide)
    MgrErr.noModels (by rfl)
  exact h.trans (by decide)

/-- C6: Once the cancellation token fires during a run (the run's
result is the cancellation error), every slot write happened strictly
before the cancellation time, the run returned at exactly the cancellation
time (it returns immediately — cancellation is checked before each chunk
and before each per-question retry, and a call in flight at the
cancellation point yields no write), and the returned answers are exactly
the partial list obtained by replaying the pre-cancellation writes over
the all-empty slot array. -/
theorem cancellation_behaviour (w : World) (qs : List Question) (k : Nat)
    (hk : w.cancelAt = some k)
    (hc : (getBatchAnswers w qs).cancelled = true) :
    (∀ e ∈ (getBatchAnswers w qs).writes, e.2.2 < k) ∧
    (getBatchAnswers w qs).finalTime = k ∧
    (getBatchAnswers w qs).answers =
      applyWrites (getBatchAnswers w qs).writes (List.replicate qs.length "") := by
  unfold getBatchAnswers at hc ⊢
  split at hc
  · simp at hc
  · rw [if_neg (by rename_i hq; simp [hq])]
    obtain ⟨c1, -, c3⟩ := runChunks_cancel w k hk (chunksOf batchSize qs) 0
      (List.replicate qs.length "") 0 (Nat.zero_le k)
    exact ⟨c3, c1 hc, runChunks_writes_eq w _ _ _ _⟩

/-- Witness for C6: a token that fires at step 0 cancels the run before
the first chunk; the result is cancelled at time 0 with both slots still
empty and no writes replayed. -/
theorem cancellation_behaviour_witness :
    (getBatchAnswers ⟨fun _ => [], fun _ => ([], []), some 0⟩
      [⟨.single, "q1", []⟩, ⟨.fill, "q2", []⟩]).finalTime = 0 ∧
    (getBatchAnswers ⟨fun _ => [], fun _ => ([], []), some 0⟩
      [⟨.single, "q1", []⟩, ⟨.fill, "q2", []⟩]).answers = ["", ""] := by
  have h := cancellation_behaviour ⟨fun _ => [], fun _ => ([], []), some 0⟩
    [⟨.single, "q1", []⟩, ⟨.fill, "q2", []⟩] 0 rfl (by decide)
  exact ⟨h.2.1, by rw [h.2.2]; rfl⟩

/-! Quiz session controller (`processQuizWithProgress`, browser.go
lines 469-603, together with the completion recording of `submitQuiz`,
lines 1367-1370). Browser effects are abstracted into a `PageWorld`
oracle: the entry cancellation check, navigation success, the raw markup
fetched right after navigation, visibility of the question container
within the wait timeout, the markup re-fetched on timeout, the HTML fetch
for extraction, and the extractor's result. -/

/-- The sentinel phrases of the check right after navigation (browser.go
lines 501-505): exhausted attempts, awaiting grading, contact instructor,
retry test, no-content placeholder. -/
def cannotAnswerPhrases : List String :=
  ["已用尽作答机会", "未交卷", "请联系老师", "重新参与测试", "pic_nothing"]

/-- Whether a sentinel phrase occurs in the markup (lines 501-505). -/
def sentinelAfterNav (html : String) : Bool :=
  cannotAnswerPhrases.any fun p => strContains html p

/-- The blank-content markup check of lines 514-515. -/
def blankMarker (html : String) : Bool :=
  strContains html "class=\"blank\"></div></div></div>" ||
    strContains html "<div class=\"blank\"></div>"

/-- The sentinel re-check after the container-wait timeout (lines
535-540): the same phrases plus the disabled-control marker `m-disable`
(and without the blank-content markers). -/
def sentinelOnTimeout (html : String) : Bool :=
  sentinelAfterNav html || strContains html "m-disable"

/-- The per-quiz browser observations. -/
structure PageWorld where
  ctxDoneAtEntry : Bool
  navOk : Bool
  htmlAfterNav : String
  containerVisible : Bool
  htmlOnTimeout : String
  htmlContentOk : Bool
  parsedQuestions : Except String (List Question)

/-- The error outcomes of `processQuizWithProgress`. -/
inductive QuizErr
  | cancelled
  | navFailed
  | containerTimeout
  | getHTMLFailed
  | parseFailed
deriving DecidableEq, Repr

/-- The observable outcome of processing one quiz: the returned result,
whether the question extractor (`parseQuestions`) was invoked, whether the
answer resolver (`getBatchAnswers`) was invoked, and the configuration
state (completion ledger) afterwards. -/
structure QuizOutcome where
  result : Except QuizErr Unit
  extractorInvoked : Bool
  resolverInvoked : Bool
  cfg : ConfigState

/-- Embeds `processQuizWithProgress`: entry cancellation check; navigation;
immediate sentinel and blank-markup checks (skip: record completed, return
success); container wait with sentinel re-check on timeout; extraction;
resolution; injection and submission (`submitQuiz` always returns success
and records the URL via `AddCompletedURL` and `MarkQuizCompleted`). -/
def processQuizWithProgress (pw : PageWorld) (w : World) (url : String)
    (s : ConfigState) : QuizOutcome :=
  if pw.ctxDoneAtEntry then ⟨.error .cancelled, false, false, s⟩
  else if !pw.navOk then ⟨.error .navFailed, false, false, s⟩
  else if sentinelAfterNav pw.htmlAfterNav then
    ⟨.ok (), false, false, addCompletedURL url s⟩
  else if blankMarker pw.htmlAfterNav then
    ⟨.ok (), false, false, addCompletedURL url s⟩
  else if !pw.containerVisible then
    if sentinelOnTimeout pw.htmlOnTimeout then
      ⟨.ok (), false, false, addCompletedURL url s⟩
    else ⟨.error .containerTimeout, false, false, s⟩
  else if !pw.htmlContentOk then ⟨.error .getHTMLFailed, false, false, s⟩
  else
    match pw.parsedQuestions with
    | .error _ => ⟨.error .parseFailed, true, false, s⟩
    | .ok [] => ⟨.ok (), true, false, s⟩
    | .ok qs =>
      let run := getBatchAnswers w qs
      if run.cancelled then ⟨.error .cancelled, true, true, s⟩
      else if isDone w.cancelAt run.finalTime then ⟨.error .cancelled, true, true, s⟩
      else ⟨.ok (), true, true, markQuizCompleted url (addCompletedURL url s)⟩

theorem isURLCompleted_addCompletedURL (url : String) (s : ConfigState) :
    isURLCompleted (addCompletedURL url s) url = true := by
  unfold isURLCompleted addCompletedURL
  split
  · assumption
  · simp

/-- C3 (amended): For every quiz page whose raw markup, inspected
immediately after navigation, matches the code's immediate sentinel set —
the "cannot answer" phrases (exhausted attempts, awaiting grading, contact
instructor, retry test, no-content placeholder) or the blank-content
markers — the controller skips the quiz without invoking the question
extractor or the answer resolver, records the quiz URL as completed in the
ledger, and returns success. (The disabled-control marker `m-disable` is
not part of this immediate set; it is consulted only in the re-check after
the container-wait timeout.) -/
theorem sentinel_skip (pw : PageWorld) (w : World) (url : String) (s : ConfigState)
    (h0 : pw.ctxDoneAtEntry = false) (h1 : pw.navOk = true)
    (h2 : sentinelAfterNav pw.htmlAfterNav = true ∨ blankMarker pw.htmlAfterNav = true) :
    (processQuizWithProgress pw w url s).result = .ok () ∧
    (processQuizWithProgress pw w url s).extractorInvoked = false ∧
    (processQuizWithProgress pw w url s).resolverInvoked = false ∧
    isURLCompleted (processQuizWithProgress pw w url s).cfg url = true := by
  unfold processQuizWithProgress
  rw [h0, h1]
  rcases h2 with h2 | h2
  · rw [if_neg (by simp), if_neg (by simp), if_pos h2]
    exact ⟨rfl, rfl, rfl, isURLCompleted_addCompletedURL url s⟩
  · rw [if_neg (by simp), if_neg (by simp)]
    by_cases hs : sentinelAfterNav pw.htmlAfterNav = true
    · rw [if_pos hs]
      exact ⟨rfl, rfl, rfl, isURLCompleted_addCompletedURL url s⟩
    · rw [if_neg hs, if_pos h2]
      exact ⟨rfl, rfl, rfl, isURLCompleted_addCompletedURL url s⟩

/-- Witness for the amended C3: a page announcing exhausted attempts is
skipped with success, no extraction or resolution, and the URL marked
completed. -/
theorem sentinel_skip_witness :
    (processQuizWithProgress
      ⟨false, true, "<div>已用尽作答机会</div>", false, "", false, .ok []⟩
      ⟨fun _ => [], fun _ => ([], []), none⟩ "https://quiz"
      ⟨⟨"", "", ""⟩, [], [], []⟩).result = .ok () ∧
    isURLCompleted (processQuizWithProgress
      ⟨false, true, "<div>已用尽作答机会</div>", false, "", false, .ok []⟩
      ⟨fun _ => [], fun _ => ([], []), none⟩ "https://quiz"
      ⟨⟨"", "", ""⟩, [], [], []⟩).cfg "https://quiz" = true := by
  have h := sentinel_skip
    ⟨false, true, "<div>已用尽作答机会</div>", false, "", false, .ok []⟩
    ⟨fun _ => [], fun _ => ([], []), none⟩ "https://quiz"
    ⟨⟨"", "", ""⟩, [], [], []⟩ rfl rfl (Or.inl (by decide))
  exact ⟨h.1, h.2.2.2⟩

/-- A page whose markup contains, of the claim's sentinel list, only the
disabled-control marker `m-disable`, while the question container is
visible and extraction yields no questions. -/
def mDisablePage : PageWorld :=
  ⟨false, true,
   "<html><div class=\"m-disable\">按钮</div><div class=\"con-list\">内容</div></html>",
   true, "", true, .ok []⟩

/-- C3 counterexample: The claim's closed sentinel set includes the
disabled-control markers; but on a page whose post-navigation markup
contains `m-disable` (and no other sentinel) with a visible question
container, the controller does not skip: the extractor is invoked and the
quiz URL is not recorded as completed. -/
theorem sentinel_skip_counterexample :
    strContains mDisablePage.htmlAfterNav "m-disable" = true ∧
    (processQuizWithProgress mDisablePage ⟨fun _ => [], fun _ => ([], []), none⟩
      "https://quiz" ⟨⟨"", "", ""⟩, [], [], []⟩).extractorInvoked = true ∧
    isURLCompleted (processQuizWithProgress mDisablePage
      ⟨fun _ => [], fun _ => ([], []), none⟩
      "https://quiz" ⟨⟨"", "", ""⟩, [], [], []⟩).cfg "https://quiz" = false := by
  refine ⟨by decide, by decide, by decide⟩

end Mosoteach
